import Mathlib

/-
Verification of the vertex-buffer decomposition core of the Sollumz importer
(`ydr/import_cwxml/geometry.py`).  The Python code is shallowly embedded:
vertex records become a structure with optional attributes, Python dicts
(which preserve insertion order) become association lists, Python float
division of weight bytes by 255 becomes exact rational division, and Python
exceptions (IndexError / AttributeError raised while indexing the blend
arrays) become an `Except` error value.
-/

namespace SollumzGeometry

/-- A generic attribute value: a flat tuple of numbers (positions and normals
are 3-tuples, texcoords 2-tuples, colours 4-tuples).  The code never looks
inside these values, it only moves them around. -/
abbrev Vec := List ℚ

/-- Embedding of one vertex record of the vertex buffer (a `NamedTuple` row in
the source).  `position` is always present; `normal`, `blendweights` and
`blendindices` are optional attributes (`hasattr` checks in the source);
`namedFields` holds the remaining named fields of `vertex._asdict()` in
declaration order (the uv/colour channels).  The four fixed attribute names
"position", "normal", "blendweights", "blendindices" do not contain the
substrings "texcoord" or "colour", so iterating `namedFields` in the channel
loop is observationally the same as iterating the full `_asdict()`. -/
structure VertexRecord where
  position : Vec
  normal : Option Vec
  blendweights : Option (List ℕ)
  blendindices : Option (List ℕ)
  namedFields : List (String × Vec)
deriving DecidableEq

/-- Embedding of the Python exceptions that can escape
`get_vertex_components`: `indexError` models an IndexError raised by
`vertex.blendweights[i]` / `vertex.blendindices[i]` on a too-short array,
`attributeError` models an AttributeError raised by `vertex.blendindices`
when the record has blend weights but no blend indices. -/
inductive DecodeErr where
  | indexError
  | attributeError
deriving DecidableEq

/-- Embedding of the `VertexComponents` NamedTuple of the source.  The Python
dicts `uv_map`, `color_map` and `vertex_groups` are embedded as association
lists so that the insertion order of keys (which Python dicts preserve, and
which `create_uv_layers` / `create_vertex_groups` / `set_geometry_weights`
rely on) is part of the model. -/
structure VertexComponents where
  positions : List Vec
  normals : List Vec
  uv_map : List (String × List Vec)
  color_map : List (String × List Vec)
  vertex_groups : List (ℕ × List (ℕ × ℚ))
deriving DecidableEq

/-- Embedding of the Python idiom
`if k not in d: d[k] = []` followed by `d[k].append(v)` on an
insertion-ordered dict: append `v` to the list of the first entry with key
`k`, or add a new entry `(k, [v])` at the end. -/
def appendGrouped {α β : Type} [DecidableEq α] :
    List (α × List β) → α → β → List (α × List β)
  | [], k, v => [(k, [v])]
  | (k0, l0) :: rest, k, v =>
    if k0 = k then (k0, l0 ++ [v]) :: rest
    else (k0, l0) :: appendGrouped rest k v

/-- The keys of a sequence in order of first occurrence: the key-iteration
order of a Python dict built by inserting the sequence left to right. -/
def firstOccurrences {α : Type} [DecidableEq α] (l : List α) : List α :=
  l.foldl (fun acc a => if a ∈ acc then acc else acc ++ [a]) []

/-- Specification-side description of an insertion-ordered grouping dict:
keys in first-occurrence order, each key paired with all its values in
stream order. -/
def groupedOf {α β : Type} [DecidableEq α] (stream : List (α × β)) :
    List (α × List β) :=
  (firstOccurrences (stream.map Prod.fst)).map
    (fun k => (k, stream.filterMap (fun kv => if kv.1 = k then some kv.2 else none)))

/-- Character-list matching: `pat` is an initial segment of `s`. -/
def leadMatch : List Char → List Char → Bool
  | [], _ => true
  | _ :: _, [] => false
  | a :: as, b :: bs => a == b && leadMatch as bs

/-- Character-list matching: `pat` occurs somewhere inside `s`. -/
def hasSub (pat : List Char) : List Char → Bool
  | [] => pat.isEmpty
  | c :: rest => leadMatch pat (c :: rest) || hasSub pat rest

/-- Embedding of the Python substring test `pat in key` on strings. -/
def strContains (key pat : String) : Bool :=
  hasSub pat.data key.data

/-- Embedding of one iteration `i` of the blend loop
(`geometry.py` lines 156-166): read `blendweights[i]` (IndexError if out of
range), de-quantize to `blendweights[i] / 255`, read `blendindices[i]`
(AttributeError if the attribute is missing, IndexError if out of range) and
append `(vertex_index, weight)` under key `blendindices[i]`. -/
def doSlot (vg : List (ℕ × List (ℕ × ℚ))) (vidx : ℕ) (bw : List ℕ)
    (obi : Option (List ℕ)) (i : ℕ) :
    Except DecodeErr (List (ℕ × List (ℕ × ℚ))) :=
  match bw.get? i with
  | none => Except.error DecodeErr.indexError
  | some b =>
    match obi with
    | none => Except.error DecodeErr.attributeError
    | some bi =>
      match bi.get? i with
      | none => Except.error DecodeErr.indexError
      | some bone => Except.ok (appendGrouped vg bone (vidx, (b : ℚ) / 255))

/-- Embedding of the guarded blend block (`geometry.py` lines 155-166): if
the record has the `blendweights` attribute, run the slot loop for
`i in range(0, 4)`. -/
def processBlend (vg : List (ℕ × List (ℕ × ℚ))) (vidx : ℕ)
    (v : VertexRecord) : Except DecodeErr (List (ℕ × List (ℕ × ℚ))) :=
  match v.blendweights with
  | none => Except.ok vg
  | some bw =>
    match doSlot vg vidx bw v.blendindices 0 with
    | Except.error e => Except.error e
    | Except.ok vg1 =>
      match doSlot vg1 vidx bw v.blendindices 1 with
      | Except.error e => Except.error e
      | Except.ok vg2 =>
        match doSlot vg2 vidx bw v.blendindices 2 with
        | Except.error e => Except.error e
        | Except.ok vg3 => doSlot vg3 vidx bw v.blendindices 3

/-- Embedding of the channel loop (`geometry.py` lines 168-176): for every
named field of the record, append its value to `uv_map[key]` when the name
contains "texcoord" and to `color_map[key]` when the name contains
"colour", creating each list on first sight. -/
def addChannels (uv cm : List (String × List Vec)) :
    List (String × Vec) → List (String × List Vec) × List (String × List Vec)
  | [] => (uv, cm)
  | (key, value) :: rest =>
    addChannels
      (if strContains key "texcoord" then appendGrouped uv key value else uv)
      (if strContains key "colour" then appendGrouped cm key value else cm)
      rest

/-- Embedding of one iteration of the vertex loop of
`get_vertex_components`: append the position, append the normal when
present, run the blend block (which may fail), then run the channel loop. -/
def processVertex (acc : VertexComponents) (vidx : ℕ) (v : VertexRecord) :
    Except DecodeErr VertexComponents :=
  match processBlend acc.vertex_groups vidx v with
  | Except.error e => Except.error e
  | Except.ok vg =>
    Except.ok
      { positions := acc.positions ++ [v.position]
        normals :=
          match v.normal with
          | some n => acc.normals ++ [n]
          | none => acc.normals
        uv_map := (addChannels acc.uv_map acc.color_map v.namedFields).1
        color_map := (addChannels acc.uv_map acc.color_map v.namedFields).2
        vertex_groups := vg }

/-- The enumerated vertex loop of `get_vertex_components`, carrying the
accumulated components and the current vertex index. -/
def gvcAux (acc : VertexComponents) (vidx : ℕ) :
    List VertexRecord → Except DecodeErr VertexComponents
  | [] => Except.ok acc
  | v :: rest =>
    match processVertex acc vidx v with
    | Except.error e => Except.error e
    | Except.ok acc1 => gvcAux acc1 (vidx + 1) rest

/-- Embedding of the static method
`GeometryCWXMLConverter.get_vertex_components` (`geometry.py` lines
139-178): split the vertex buffer into separate components, starting from
all-empty containers and vertex index 0. -/
def get_vertex_components (vs : List VertexRecord) :
    Except DecodeErr VertexComponents :=
  gvcAux ⟨[], [], [], [], []⟩ 0 vs

/-- Embedding of the face-reshaping step of `create_mesh` (`geometry.py`
line 62): `faces = [indices[i:i + 3] for i in range(0, len(indices), 3)]`.
Python slicing clamps, so a trailing group of one or two indices becomes a
short final chunk and no error is raised. -/
def chunkFaces : List ℕ → List (List ℕ)
  | [] => []
  | [a] => [[a]]
  | [a, b] => [[a, b]]
  | a :: b :: c :: rest => [a, b, c] :: chunkFaces rest

/-- Embedding of the bone-name computation of `create_vertex_groups`
(`geometry.py` lines 118-124).  Bones are embedded by their names.  The
Python truthiness tests `bones and ...` / `bone_ids and ...` become
nonemptiness conjuncts. -/
def vertexGroupName (bones : List String) (bone_ids : List ℕ)
    (bone_index : ℕ) : String :=
  if bones ≠ [] ∧ bone_index < bones.length then
    bones.getD bone_index "UNKNOWN_BONE"
  else if bone_ids ≠ [] ∧ bone_index < bone_ids.length then
    "EXTERNAL_BONE." ++ toString bone_index
  else "UNKNOWN_BONE"

/-- Embedding of `create_vertex_groups` (`geometry.py` lines 106-126): one
vertex group is created (named as above) per key of `vertex_groups`, in key
iteration order.  The output is the ordered list of created group names. -/
def create_vertex_groups (bones : List String) (bone_ids : List ℕ)
    (vc : VertexComponents) : List String :=
  vc.vertex_groups.map (fun g => vertexGroupName bones bone_ids g.1)

/-- Embedding of `set_geometry_weights` (`geometry.py` lines 128-133): the
ordered list of `vertex_groups[i].add([vertex_index], weight, "ADD")` calls
performed, as triples `(i, vertex_index, weight)` where `i` enumerates the
values of `vertex_groups` in iteration order. -/
def set_geometry_weights (vc : VertexComponents) : List (ℕ × ℕ × ℚ) :=
  (vc.vertex_groups.map Prod.snd).enum.flatMap
    (fun p => p.2.map (fun e => (p.1, e.1, e.2)))

/-- Embedding of `create_material` (`geometry.py` lines 77-86) over an
abstract material type: returns (warning-emitted flag, new mesh material
list).  Out-of-range shader index (including negative, hence `ℤ`) warns and
leaves the list unchanged; in-range appends `materials[shader_index]`. -/
def create_material (shader_index : ℤ) (materials : List String)
    (mesh_materials : List String) : Bool × List String :=
  if ¬ (0 ≤ shader_index ∧ shader_index < materials.length) then
    (true, mesh_materials)
  else
    (false, mesh_materials ++ [materials.getD shader_index.toNat "UNKNOWN"])

/-- Specification-side view of `set_geometry_weights`: the (vertex, weight)
pairs passed to `vertex_groups[i].add` for one fixed group slot `i`, in call
order. -/
def slotWeights (ops : List (ℕ × ℕ × ℚ)) (i : ℕ) : List (ℕ × ℚ) :=
  ops.filterMap (fun t => if t.1 = i then some t.2 else none)

/-- Specification-side wellformedness of the blend data of one record: the
blend attributes either are absent together with no array access, or both
arrays carry at least the four slots the loop reads.  This is exactly the
condition under which the blend block of the source raises no exception. -/
def blendOk (v : VertexRecord) : Bool :=
  match v.blendweights with
  | none => true
  | some bw =>
    match v.blendindices with
    | none => false
    | some bi => decide (4 ≤ bw.length) && decide (4 ≤ bi.length)

/-- Specification-side description of the four blend slots contributed by
one record at vertex index `vidx`, in slot order `0..3`: key
`blendindices[i]`, value `(vidx, blendweights[i] / 255)`.  (For records
satisfying `blendOk` the `getD` defaults are never used.) -/
def vertexSlots (vidx : ℕ) (v : VertexRecord) : List (ℕ × (ℕ × ℚ)) :=
  match v.blendweights with
  | none => []
  | some bw =>
    ([0, 1, 2, 3] : List ℕ).map
      (fun j => ((v.blendindices.getD []).getD j 0,
        (vidx, ((bw.getD j 0 : ℚ) / 255))))

/-- Specification-side description of the whole blend-slot stream: vertices
in input order (enumerated from `vidx`), slots `0..3` within a vertex. -/
def specSlotStream (vidx : ℕ) : List VertexRecord → List (ℕ × (ℕ × ℚ))
  | [] => []
  | v :: rest => vertexSlots vidx v ++ specSlotStream (vidx + 1) rest

/-- Specification-side description of the bone-index scan order: the keys of
the blend-slot stream. -/
def specBoneScan (vs : List VertexRecord) : List ℕ :=
  (specSlotStream 0 vs).map Prod.fst

/-- Specification-side description of the stream of named fields whose name
contains `pat`, vertices in input order, fields in record order. -/
def specFieldStream (pat : String) (vs : List VertexRecord) :
    List (String × Vec) :=
  vs.flatMap (fun v => v.namedFields.filter (fun kv => strContains kv.1 pat))

/-- First-match lookup of a named field, the observable content of a Python
dict access `vertex._asdict()[k]`. -/
def lookupField : List (String × Vec) → String → Option Vec
  | [], _ => none
  | (k0, v) :: rest, k => if k0 = k then some v else lookupField rest k

/-- Buffer-wide layout uniformity for the normal attribute ("field presence
is determined per-buffer, not per-vertex"): either all records carry a
normal or none does. -/
def uniformNormals (vs : List VertexRecord) : Prop :=
  (∀ v ∈ vs, v.normal.isSome = true) ∨ (∀ v ∈ vs, v.normal = none)

/-- Buffer-wide layout uniformity for the named fields: all records list the
same field names in the same order, and (as for any Python dict row) the
names of one record are pairwise distinct. -/
def uniformFields (vs : List VertexRecord) : Prop :=
  (∀ v ∈ vs, ∀ w ∈ vs, v.namedFields.map Prod.fst = w.namedFields.map Prod.fst)
  ∧ ∀ v ∈ vs, (v.namedFields.map Prod.fst).Nodup

end SollumzGeometry

namespace SollumzGeometry

section GroupingLemmas

variable {α β : Type} [DecidableEq α]

theorem appendGrouped_map_of_mem (f : α → List β) (k : α) (v : β) :
    ∀ (ks : List α), ks.Nodup → k ∈ ks →
      appendGrouped (ks.map fun x => (x, f x)) k v =
        ks.map (fun x => (x, if x = k then f x ++ [v] else f x)) := by
  intro ks
  induction ks with
  | nil => intro _ h; cases h
  | cons k0 rest ih =>
    intro hnd hmem
    rcases List.nodup_cons.mp hnd with ⟨hk0, hrest⟩
    by_cases h0 : k0 = k
    · subst h0
      simp only [List.map_cons, appendGrouped, if_true]
      congr 1
      apply List.map_congr_left
      intro x hx
      rw [if_neg (fun hxk : x = k0 => hk0 (hxk ▸ hx))]
    · have hkrest : k ∈ rest := by
        rcases List.mem_cons.mp hmem with h | h
        · exact absurd h.symm h0
        · exact h
      simp only [List.map_cons, appendGrouped]
      rw [if_neg h0, if_neg h0, ih hrest hkrest]

theorem appendGrouped_map_of_not_mem (f : α → List β) (k : α) (v : β) :
    ∀ (ks : List α), k ∉ ks →
      appendGrouped (ks.map fun x => (x, f x)) k v =
        (ks.map fun x => (x, f x)) ++ [(k, [v])] := by
  intro ks
  induction ks with
  | nil => intro _; rfl
  | cons k0 rest ih =>
    intro hmem
    have h0 : k0 ≠ k := fun h => hmem (h ▸ List.mem_cons_self k0 rest)
    have hrest : k ∉ rest := fun h => hmem (List.mem_cons_of_mem _ h)
    simp only [List.map_cons, appendGrouped]
    rw [if_neg h0, List.cons_append, ih hrest]

theorem mem_foldl_firstOcc (l : List α) :
    ∀ (acc : List α) (x : α),
      x ∈ l.foldl (fun acc a => if a ∈ acc then acc else acc ++ [a]) acc ↔
        x ∈ acc ∨ x ∈ l := by
  induction l with
  | nil => intro acc x; simp
  | cons a rest ih =>
    intro acc x
    simp only [List.foldl_cons]
    rw [ih]
    by_cases h : a ∈ acc
    · rw [if_pos h]
      constructor
      · rintro (h1 | h1)
        · exact Or.inl h1
        · exact Or.inr (List.mem_cons_of_mem _ h1)
      · rintro (h1 | h1)
        · exact Or.inl h1
        · rcases List.mem_cons.mp h1 with h2 | h2
          · exact Or.inl (h2 ▸ h)
          · exact Or.inr h2
    · rw [if_neg h]
      simp only [List.mem_append, List.mem_singleton, List.mem_cons]
      tauto

theorem mem_firstOccurrences (l : List α) (x : α) :
    x ∈ firstOccurrences l ↔ x ∈ l := by
  unfold firstOccurrences
  rw [mem_foldl_firstOcc]
  simp

theorem nodup_foldl_firstOcc (l : List α) :
    ∀ (acc : List α), acc.Nodup →
      (l.foldl (fun acc a => if a ∈ acc then acc else acc ++ [a]) acc).Nodup := by
  induction l with
  | nil => intro acc h; exact h
  | cons a rest ih =>
    intro acc hacc
    simp only [List.foldl_cons]
    by_cases h : a ∈ acc
    · rw [if_pos h]; exact ih acc hacc
    · rw [if_neg h]
      apply ih
      rw [List.nodup_append]
      exact ⟨hacc, List.nodup_singleton a, by simpa using h⟩

theorem nodup_firstOccurrences (l : List α) : (firstOccurrences l).Nodup :=
  nodup_foldl_firstOcc l [] List.nodup_nil

theorem firstOccurrences_concat (l : List α) (a : α) :
    firstOccurrences (l ++ [a]) =
      if a ∈ firstOccurrences l then firstOccurrences l
      else firstOccurrences l ++ [a] := by
  unfold firstOccurrences
  rw [List.foldl_append]
  rfl

theorem filterMap_guard_of_not_mem (s : List (α × β)) (k : α)
    (h : k ∉ s.map Prod.fst) :
    s.filterMap (fun kv => if kv.1 = k then some kv.2 else none) = [] := by
  induction s with
  | nil => rfl
  | cons kv rest ih =>
    simp only [List.map_cons, List.mem_cons] at h
    push_neg at h
    rw [List.filterMap_cons_none (by rw [if_neg (Ne.symm h.1)])]
    exact ih h.2

theorem filterMap_guard_concat (s : List (α × β)) (kv : α × β) (k : α) :
    (s ++ [kv]).filterMap (fun x => if x.1 = k then some x.2 else none) =
      s.filterMap (fun x => if x.1 = k then some x.2 else none) ++
        (if kv.1 = k then [kv.2] else []) := by
  rw [List.filterMap_append]
  congr 1
  by_cases h : kv.1 = k
  · rw [List.filterMap_cons_some (by rw [if_pos h]), List.filterMap_nil, if_pos h]
  · rw [List.filterMap_cons_none (by rw [if_neg h]), List.filterMap_nil, if_neg h]

theorem foldl_appendGrouped (s : List (α × β)) :
    s.foldl (fun m kv => appendGrouped m kv.1 kv.2) [] = groupedOf s := by
  induction s using List.reverseRecOn with
  | nil => rfl
  | append_singleton s kv ih =>
    rw [List.foldl_append, List.foldl_cons, List.foldl_nil, ih]
    unfold groupedOf
    rw [List.map_append, List.map_singleton, firstOccurrences_concat]
    by_cases hk : kv.1 ∈ firstOccurrences (s.map Prod.fst)
    · rw [if_pos hk]
      rw [appendGrouped_map_of_mem _ _ _ _ (nodup_firstOccurrences _) hk]
      apply List.map_congr_left
      intro x hx
      rw [filterMap_guard_concat]
      by_cases hx1 : x = kv.1
      · rw [if_pos hx1, if_pos hx1.symm]
      · rw [if_neg hx1, if_neg (fun h => hx1 h.symm), List.append_nil]
    · rw [if_neg hk]
      rw [appendGrouped_map_of_not_mem _ _ _ _ hk]
      rw [List.map_append, List.map_singleton]
      congr 1
      · apply List.map_congr_left
        intro x hx
        rw [filterMap_guard_concat]
        rw [if_neg (fun h : kv.1 = x => hk (h ▸ hx)), List.append_nil]
      · congr 2
        rw [filterMap_guard_concat]
        rw [filterMap_guard_of_not_mem _ _ (by rw [← mem_firstOccurrences]; exact hk)]
        rw [if_pos rfl, List.nil_append]

theorem groupedOf_keys (s : List (α × β)) :
    (groupedOf s).map Prod.fst = firstOccurrences (s.map Prod.fst) := by
  unfold groupedOf
  rw [List.map_map]
  exact List.map_id'' (fun _ => rfl) _

end GroupingLemmas

end SollumzGeometry

namespace SollumzGeometry

section FusionLemmas

theorem addChannels_eq (fields : List (String × Vec)) :
    ∀ (uv cm : List (String × List Vec)),
      addChannels uv cm fields =
        ((fields.filter (fun kv => strContains kv.1 "texcoord")).foldl
            (fun m kv => appendGrouped m kv.1 kv.2) uv,
          (fields.filter (fun kv => strContains kv.1 "colour")).foldl
            (fun m kv => appendGrouped m kv.1 kv.2) cm) := by
  induction fields with
  | nil => intro uv cm; rfl
  | cons kv rest ih =>
    intro uv cm
    rcases kv with ⟨key, value⟩
    by_cases ht : strContains key "texcoord" = true
    · by_cases hc : strContains key "colour" = true
      · simp only [addChannels, ih, List.filter_cons, if_pos ht, if_pos hc,
          List.foldl_cons]
      · simp only [addChannels, ih, List.filter_cons, if_pos ht, if_neg hc,
          List.foldl_cons]
    · by_cases hc : strContains key "colour" = true
      · simp only [addChannels, ih, List.filter_cons, if_pos hc, if_neg ht,
          List.foldl_cons]
      · simp only [addChannels, ih, List.filter_cons, if_neg ht, if_neg hc,
          List.foldl_cons]

theorem doSlot_ok (vg vg' : List (ℕ × List (ℕ × ℚ))) (vidx : ℕ) (bw : List ℕ)
    (obi : Option (List ℕ)) (i : ℕ)
    (h : doSlot vg vidx bw obi i = Except.ok vg') :
    ∃ b bi bone, bw.get? i = some b ∧ obi = some bi ∧ bi.get? i = some bone ∧
      vg' = appendGrouped vg bone (vidx, (b : ℚ) / 255) := by
  unfold doSlot at h
  split at h
  · cases h
  · rename_i b hbw
    split at h
    · cases h
    · rename_i bi
      split at h
      · cases h
      · rename_i bone hbi
        injection h with h'
        exact ⟨b, bi, bone, hbw, rfl, hbi, h'.symm⟩

theorem doSlot_ok_of_lengths (vg : List (ℕ × List (ℕ × ℚ))) (vidx : ℕ)
    (bw bi : List ℕ) (i : ℕ) (hbw : i < bw.length) (hbi : i < bi.length) :
    doSlot vg vidx bw (some bi) i =
      Except.ok (appendGrouped vg (bi.getD i 0) (vidx, ((bw.getD i 0 : ℕ) : ℚ) / 255)) := by
  unfold doSlot
  cases h1 : bw.get? i with
  | none => exact absurd (List.get?_eq_none.mp h1) (Nat.not_le.mpr hbw)
  | some b =>
    cases h2 : bi.get? i with
    | none => exact absurd (List.get?_eq_none.mp h2) (Nat.not_le.mpr hbi)
    | some bone =>
      have e1 : bw.getD i 0 = b := by
        rw [List.getD_eq_getElem?_getD, ← List.get?_eq_getElem?, h1]; rfl
      have e2 : bi.getD i 0 = bone := by
        rw [List.getD_eq_getElem?_getD, ← List.get?_eq_getElem?, h2]; rfl
      rw [e1, e2]
      simp only [h2]

theorem processBlend_ok (vg vg' : List (ℕ × List (ℕ × ℚ))) (vidx : ℕ)
    (v : VertexRecord) (h : processBlend vg vidx v = Except.ok vg') :
    blendOk v = true ∧
      vg' = (vertexSlots vidx v).foldl (fun m kv => appendGrouped m kv.1 kv.2) vg := by
  rcases v with ⟨pos, onorm, obw, obi, fields⟩
  cases obw with
  | none =>
    simp only [processBlend] at h
    injection h with h'
    exact ⟨rfl, h'.symm⟩
  | some bw =>
    simp only [processBlend] at h
    split at h
    · cases h
    · rename_i vg1 h0
      split at h
      · cases h
      · rename_i vg2 h1
        split at h
        · cases h
        · rename_i vg3 h2
          rcases doSlot_ok _ _ _ _ _ _ h0 with ⟨b0, bi, bone0, e0, ebi, f0, g0⟩
          rcases doSlot_ok _ _ _ _ _ _ h1 with ⟨b1, bi1, bone1, e1, ebi1, f1, g1⟩
          rcases doSlot_ok _ _ _ _ _ _ h2 with ⟨b2, bi2, bone2, e2, ebi2, f2, g2⟩
          rcases doSlot_ok _ _ _ _ _ _ h with ⟨b3, bi3, bone3, e3, ebi3, f3, g3⟩
          simp only [ebi, Option.some.injEq] at ebi1 ebi2 ebi3
          subst ebi1
          subst ebi2
          subst ebi3
          have hbwlen : 4 ≤ bw.length := by
            by_contra hlt
            push_neg at hlt
            have h3 : bw.get? 3 = none := List.get?_eq_none.mpr (by omega)
            rw [h3] at e3
            cases e3
          have hbilen : 4 ≤ bi.length := by
            by_contra hlt
            push_neg at hlt
            have h3 : bi.get? 3 = none := List.get?_eq_none.mpr (by omega)
            rw [h3] at f3
            cases f3
          constructor
          · simp only [blendOk, ebi]
            simp [hbwlen, hbilen]
          · simp only [vertexSlots, ebi, Option.getD_some, List.map_cons,
              List.map_nil, List.foldl_cons, List.foldl_nil]
            have gd : ∀ (j : ℕ) (x : ℕ) (l : List ℕ), l.get? j = some x → l.getD j 0 = x := by
              intro j x l hj
              rw [List.getD_eq_getElem?_getD, ← List.get?_eq_getElem?, hj]
              rfl
            rw [gd 0 b0 bw e0, gd 1 b1 bw e1, gd 2 b2 bw e2, gd 3 b3 bw e3,
              gd 0 bone0 bi f0, gd 1 bone1 bi f1, gd 2 bone2 bi f2, gd 3 bone3 bi f3]
            rw [g3, g2, g1, g0]

theorem processBlend_total (vg : List (ℕ × List (ℕ × ℚ))) (vidx : ℕ)
    (v : VertexRecord) (h : blendOk v = true) :
    ∃ vg', processBlend vg vidx v = Except.ok vg' := by
  rcases v with ⟨pos, onorm, obw, obi, fields⟩
  cases obw with
  | none => exact ⟨vg, rfl⟩
  | some bw =>
    cases obi with
    | none =>
      simp only [blendOk] at h
      exact Bool.noConfusion h
    | some bi =>
      simp only [blendOk, Bool.and_eq_true, decide_eq_true_eq] at h
      rcases h with ⟨hbwl, hbil⟩
      set v0 : VertexRecord := ⟨pos, onorm, some bw, some bi, fields⟩ with hv0
      cases hres : processBlend vg vidx v0 with
      | ok vg' => exact ⟨vg', rfl⟩
      | error e =>
        exfalso
        simp only [processBlend, hv0] at hres
        split at hres
        · rename_i e0 heq0
          rw [doSlot_ok_of_lengths _ vidx bw bi 0 (by omega) (by omega)] at heq0
          cases heq0
        · rename_i vg1 heq0
          split at hres
          · rename_i e1 heq1
            rw [doSlot_ok_of_lengths _ vidx bw bi 1 (by omega) (by omega)] at heq1
            cases heq1
          · rename_i vg2 heq1
            split at hres
            · rename_i e2 heq2
              rw [doSlot_ok_of_lengths _ vidx bw bi 2 (by omega) (by omega)] at heq2
              cases heq2
            · rename_i vg3 heq2
              rw [doSlot_ok_of_lengths _ vidx bw bi 3 (by omega) (by omega)] at hres
              cases hres

end FusionLemmas

end SollumzGeometry

namespace SollumzGeometry

section DecoderLemmas

theorem specSlotStream_cons (vidx : ℕ) (v : VertexRecord)
    (rest : List VertexRecord) :
    specSlotStream vidx (v :: rest) =
      vertexSlots vidx v ++ specSlotStream (vidx + 1) rest := rfl

theorem processVertex_ok (acc acc' : VertexComponents) (vidx : ℕ)
    (v : VertexRecord) (h : processVertex acc vidx v = Except.ok acc') :
    blendOk v = true
    ∧ acc'.positions = acc.positions ++ [v.position]
    ∧ acc'.normals =
        (match v.normal with
          | some n => acc.normals ++ [n]
          | none => acc.normals)
    ∧ acc'.uv_map = (v.namedFields.filter (fun kv => strContains kv.1 "texcoord")).foldl
        (fun m kv => appendGrouped m kv.1 kv.2) acc.uv_map
    ∧ acc'.color_map = (v.namedFields.filter (fun kv => strContains kv.1 "colour")).foldl
        (fun m kv => appendGrouped m kv.1 kv.2) acc.color_map
    ∧ acc'.vertex_groups = (vertexSlots vidx v).foldl
        (fun m kv => appendGrouped m kv.1 kv.2) acc.vertex_groups := by
  unfold processVertex at h
  split at h
  · cases h
  · rename_i vg heq
    rcases processBlend_ok _ _ _ _ heq with ⟨hok, hvg⟩
    injection h with h'
    subst h'
    refine ⟨hok, rfl, rfl, ?_, ?_, hvg⟩
    · rw [addChannels_eq]
    · rw [addChannels_eq]

theorem processVertex_total (acc : VertexComponents) (vidx : ℕ)
    (v : VertexRecord) (h : blendOk v = true) :
    ∃ acc', processVertex acc vidx v = Except.ok acc' := by
  rcases processBlend_total acc.vertex_groups vidx v h with ⟨vg, hvg⟩
  unfold processVertex
  rw [hvg]
  exact ⟨_, rfl⟩

theorem gvcAux_ok (vs : List VertexRecord) :
    ∀ (acc vc : VertexComponents) (vidx : ℕ),
      gvcAux acc vidx vs = Except.ok vc →
      (∀ v ∈ vs, blendOk v = true)
      ∧ vc.positions = acc.positions ++ vs.map VertexRecord.position
      ∧ vc.normals = acc.normals ++ vs.filterMap VertexRecord.normal
      ∧ vc.uv_map = (specFieldStream "texcoord" vs).foldl
          (fun m kv => appendGrouped m kv.1 kv.2) acc.uv_map
      ∧ vc.color_map = (specFieldStream "colour" vs).foldl
          (fun m kv => appendGrouped m kv.1 kv.2) acc.color_map
      ∧ vc.vertex_groups = (specSlotStream vidx vs).foldl
          (fun m kv => appendGrouped m kv.1 kv.2) acc.vertex_groups := by
  induction vs with
  | nil =>
    intro acc vc vidx h
    injection h with h'
    subst h'
    refine ⟨fun v hv => absurd hv (List.not_mem_nil v), ?_, ?_, rfl, rfl, rfl⟩
    · rw [List.map_nil, List.append_nil]
    · rw [List.filterMap_nil, List.append_nil]
  | cons v rest ih =>
    intro acc vc vidx h
    unfold gvcAux at h
    split at h
    · cases h
    · rename_i acc1 heq
      rcases processVertex_ok _ _ _ _ heq with ⟨hbok, hpos, hnorm, huv, hcm, hvg⟩
      rcases ih acc1 vc (vidx + 1) h with ⟨ihok, ihpos, ihnorm, ihuv, ihcm, ihvg⟩
      refine ⟨?_, ?_, ?_, ?_, ?_, ?_⟩
      · intro w hw
        rcases List.mem_cons.mp hw with h1 | h1
        · exact h1 ▸ hbok
        · exact ihok w h1
      · rw [ihpos, hpos, List.map_cons, List.append_assoc, List.singleton_append]
      · rw [ihnorm, hnorm]
        cases hn : v.normal with
        | none =>
          rw [List.filterMap_cons_none (show VertexRecord.normal v = none from hn)]
        | some n =>
          rw [List.filterMap_cons_some (show VertexRecord.normal v = some n from hn),
            List.append_assoc, List.singleton_append]
      · rw [ihuv, huv]
        unfold specFieldStream
        rw [List.flatMap_cons, List.foldl_append]
      · rw [ihcm, hcm]
        unfold specFieldStream
        rw [List.flatMap_cons, List.foldl_append]
      · rw [ihvg, hvg, specSlotStream_cons, List.foldl_append]

theorem gvcAux_total (vs : List VertexRecord) :
    ∀ (acc : VertexComponents) (vidx : ℕ),
      (∀ v ∈ vs, blendOk v = true) →
      ∃ vc, gvcAux acc vidx vs = Except.ok vc := by
  induction vs with
  | nil => intro acc vidx _; exact ⟨acc, rfl⟩
  | cons v rest ih =>
    intro acc vidx hall
    rcases processVertex_total acc vidx v (hall v (List.mem_cons_self v rest)) with
      ⟨acc1, hacc1⟩
    rcases ih acc1 (vidx + 1) (fun w hw => hall w (List.mem_cons_of_mem v hw)) with
      ⟨vc, hvc⟩
    refine ⟨vc, ?_⟩
    unfold gvcAux
    rw [hacc1]
    exact hvc

theorem gvc_ok (vs : List VertexRecord) (vc : VertexComponents)
    (h : get_vertex_components vs = Except.ok vc) :
    (∀ v ∈ vs, blendOk v = true)
    ∧ vc.positions = vs.map VertexRecord.position
    ∧ vc.normals = vs.filterMap VertexRecord.normal
    ∧ vc.uv_map = groupedOf (specFieldStream "texcoord" vs)
    ∧ vc.color_map = groupedOf (specFieldStream "colour" vs)
    ∧ vc.vertex_groups = groupedOf (specSlotStream 0 vs) := by
  rcases gvcAux_ok vs _ vc 0 h with ⟨hok, hpos, hnorm, huv, hcm, hvg⟩
  refine ⟨hok, ?_, ?_, ?_, ?_, ?_⟩
  · rw [hpos]; rfl
  · rw [hnorm]; rfl
  · rw [huv, foldl_appendGrouped]
  · rw [hcm, foldl_appendGrouped]
  · rw [hvg, foldl_appendGrouped]

theorem gvc_total (vs : List VertexRecord)
    (h : ∀ v ∈ vs, blendOk v = true) :
    ∃ vc, get_vertex_components vs = Except.ok vc :=
  gvcAux_total vs ⟨[], [], [], [], []⟩ 0 h

end DecoderLemmas

end SollumzGeometry

namespace SollumzGeometry

section StreamLemmas

theorem vertexSlots_vidx (vidx : ℕ) (v : VertexRecord) :
    ∀ e ∈ vertexSlots vidx v, e.2.1 = vidx := by
  rcases v with ⟨pos, onorm, obw, obi, fields⟩
  cases obw with
  | none =>
    intro e he
    simp only [vertexSlots] at he
    exact absurd he (List.not_mem_nil e)
  | some bw =>
    intro e he
    simp only [vertexSlots, List.mem_map] at he
    rcases he with ⟨j, _, rfl⟩
    rfl

theorem specSlotStream_vidx_bound (vs : List VertexRecord) :
    ∀ (vidx : ℕ), ∀ e ∈ specSlotStream vidx vs,
      vidx ≤ e.2.1 ∧ e.2.1 < vidx + vs.length := by
  induction vs with
  | nil =>
    intro vidx e he
    simp only [specSlotStream] at he
    exact absurd he (List.not_mem_nil e)
  | cons v rest ih =>
    intro vidx e he
    rw [specSlotStream_cons] at he
    rcases List.mem_append.mp he with h | h
    · have hv := vertexSlots_vidx vidx v e h
      rw [List.length_cons]
      omega
    · have hr := ih (vidx + 1) e h
      rw [List.length_cons]
      omega

theorem specSlotStream_pairwise (vs : List VertexRecord) :
    ∀ (vidx : ℕ),
      List.Pairwise (fun a b : ℕ × (ℕ × ℚ) => a.2.1 ≤ b.2.1)
        (specSlotStream vidx vs) := by
  induction vs with
  | nil => intro vidx; exact List.Pairwise.nil
  | cons v rest ih =>
    intro vidx
    rw [specSlotStream_cons, List.pairwise_append]
    refine ⟨?_, ih (vidx + 1), ?_⟩
    · apply List.pairwise_of_forall_mem_list
      intro a ha b hb
      rw [vertexSlots_vidx vidx v a ha, vertexSlots_vidx vidx v b hb]
    · intro a ha b hb
      rw [vertexSlots_vidx vidx v a ha]
      have := (specSlotStream_vidx_bound rest (vidx + 1) b hb).1
      omega

end StreamLemmas

section ChannelLemmas

theorem specFieldStream_cons (pat : String) (v : VertexRecord)
    (rest : List VertexRecord) :
    specFieldStream pat (v :: rest) =
      v.namedFields.filter (fun kv => strContains kv.1 pat) ++
        specFieldStream pat rest := by
  unfold specFieldStream
  rw [List.flatMap_cons]

theorem specFieldStream_matches (pat : String) (vs : List VertexRecord) :
    ∀ kv ∈ specFieldStream pat vs, strContains kv.1 pat = true := by
  intro kv h
  unfold specFieldStream at h
  rcases List.mem_flatMap.mp h with ⟨v, _, hkv⟩
  exact (List.mem_filter.mp hkv).2

theorem keys_filter_subset (l : List (String × Vec)) (p : String × Vec → Bool)
    (k : String) (h : k ∈ (l.filter p).map Prod.fst) : k ∈ l.map Prod.fst := by
  rcases List.mem_map.mp h with ⟨kv, hkv, rfl⟩
  exact List.mem_map.mpr ⟨kv, List.mem_of_mem_filter hkv, rfl⟩

theorem lookupField_cons_self (k : String) (v : Vec)
    (rest : List (String × Vec)) : lookupField ((k, v) :: rest) k = some v := by
  have h : lookupField ((k, v) :: rest) k =
      if k = k then some v else lookupField rest k := rfl
  rw [h, if_pos rfl]

theorem lookupField_cons_ne (k0 k : String) (v : Vec)
    (rest : List (String × Vec)) (h0 : k0 ≠ k) :
    lookupField ((k0, v) :: rest) k = lookupField rest k := by
  have h : lookupField ((k0, v) :: rest) k =
      if k0 = k then some v else lookupField rest k := rfl
  rw [h, if_neg h0]

theorem perVertex_extract (pat k : String) (fields : List (String × Vec))
    (hnd : (fields.map Prod.fst).Nodup) (hmem : k ∈ fields.map Prod.fst)
    (hk : strContains k pat = true) :
    (fields.filter (fun kv => strContains kv.1 pat)).filterMap
        (fun kv => if kv.1 = k then some kv.2 else none) =
      [(lookupField fields k).getD []] := by
  induction fields with
  | nil => cases hmem
  | cons kv rest ih =>
    rcases kv with ⟨k0, v0⟩
    rw [List.map_cons, List.nodup_cons] at hnd
    by_cases h0 : k0 = k
    · subst h0
      rw [List.filter_cons, if_pos hk,
        List.filterMap_cons_some (by rw [if_pos rfl]),
        filterMap_guard_of_not_mem _ _
          (fun hc => hnd.1 (keys_filter_subset _ _ _ hc))]
      rw [lookupField_cons_self]
      rfl
    · have hmem' : k ∈ rest.map Prod.fst := by
        rw [List.map_cons] at hmem
        rcases List.mem_cons.mp hmem with h1 | h1
        · exact absurd h1.symm h0
        · exact h1
      rw [lookupField_cons_ne k0 k v0 rest h0]
      cases hfc : strContains k0 pat with
      | false =>
        rw [List.filter_cons, if_neg (by rw [hfc]; exact Bool.false_ne_true)]
        exact ih hnd.2 hmem'
      | true =>
        rw [List.filter_cons, if_pos hfc,
          List.filterMap_cons_none (by rw [if_neg h0])]
        exact ih hnd.2 hmem'

theorem uniformFields_of_cons (v : VertexRecord) (rest : List VertexRecord)
    (hu : uniformFields (v :: rest)) : uniformFields rest :=
  ⟨fun a ha b hb => hu.1 a (List.mem_cons_of_mem v ha) b (List.mem_cons_of_mem v hb),
    fun a ha => hu.2 a (List.mem_cons_of_mem v ha)⟩

theorem channel_key_everywhere (pat : String) (vs : List VertexRecord)
    (k : String) (hu : uniformFields vs)
    (hk : k ∈ (specFieldStream pat vs).map Prod.fst) :
    ∀ v ∈ vs, k ∈ v.namedFields.map Prod.fst := by
  rcases List.mem_map.mp hk with ⟨kv, hkv, rfl⟩
  unfold specFieldStream at hkv
  rcases List.mem_flatMap.mp hkv with ⟨v0, hv0, hkv0⟩
  have hk0 : kv.1 ∈ v0.namedFields.map Prod.fst :=
    List.mem_map.mpr ⟨kv, List.mem_of_mem_filter hkv0, rfl⟩
  intro v hv
  rw [hu.1 v hv v0 hv0]
  exact hk0

theorem channel_values (pat : String) (vs : List VertexRecord) (k : String)
    (hu : uniformFields vs)
    (hall : ∀ v ∈ vs, k ∈ v.namedFields.map Prod.fst)
    (hk : strContains k pat = true) :
    (specFieldStream pat vs).filterMap
        (fun kv => if kv.1 = k then some kv.2 else none) =
      vs.map (fun v => (lookupField v.namedFields k).getD []) := by
  induction vs with
  | nil => rfl
  | cons v rest ih =>
    rw [specFieldStream_cons, List.filterMap_append,
      perVertex_extract pat k v.namedFields (hu.2 v (List.mem_cons_self v rest))
        (hall v (List.mem_cons_self v rest)) hk,
      List.map_cons, List.singleton_append]
    rw [ih (uniformFields_of_cons v rest hu)
      (fun w hw => hall w (List.mem_cons_of_mem v hw))]

end ChannelLemmas

section NormalLemmas

theorem filterMap_normal_all_some (vs : List VertexRecord)
    (h : ∀ v ∈ vs, v.normal.isSome = true) :
    vs.filterMap VertexRecord.normal =
      vs.map (fun v => v.normal.getD []) := by
  induction vs with
  | nil => rfl
  | cons v rest ih =>
    rcases Option.isSome_iff_exists.mp (h v (List.mem_cons_self v rest)) with ⟨n, hn⟩
    rw [List.filterMap_cons_some (show VertexRecord.normal v = some n from hn),
      List.map_cons, hn]
    rw [ih (fun w hw => h w (List.mem_cons_of_mem v hw))]
    rfl

theorem filterMap_normal_all_none (vs : List VertexRecord)
    (h : ∀ v ∈ vs, v.normal = none) :
    vs.filterMap VertexRecord.normal = [] := by
  induction vs with
  | nil => rfl
  | cons v rest ih =>
    rw [List.filterMap_cons_none
      (show VertexRecord.normal v = none from h v (List.mem_cons_self v rest))]
    exact ih (fun w hw => h w (List.mem_cons_of_mem v hw))

end NormalLemmas

end SollumzGeometry

namespace SollumzGeometry

section ChunkLemmas

theorem chunkFaces_flatten : ∀ (l : List ℕ), (chunkFaces l).flatten = l := by
  intro l
  induction l using chunkFaces.induct with
  | case1 => rfl
  | case2 a => rfl
  | case3 a b => rfl
  | case4 a b c rest ih =>
    simp only [chunkFaces, List.flatten_cons]
    rw [ih]
    rfl

theorem chunkFaces_length :
    ∀ (l : List ℕ), (chunkFaces l).length = (l.length + 2) / 3 := by
  intro l
  induction l using chunkFaces.induct with
  | case1 => rfl
  | case2 a => norm_num [chunkFaces]
  | case3 a b => norm_num [chunkFaces]
  | case4 a b c rest ih =>
    simp only [chunkFaces, List.length_cons]
    rw [ih]
    omega

theorem chunkFaces_ne_nil (l : List ℕ) (h : l ≠ []) : chunkFaces l ≠ [] := by
  induction l using chunkFaces.induct with
  | case1 => exact absurd rfl h
  | case2 a => exact List.cons_ne_nil _ _
  | case3 a b => exact List.cons_ne_nil _ _
  | case4 a b c rest ih => exact List.cons_ne_nil _ _

theorem getLast?_cons_of_ne_nil {α : Type} (x : α) (ys : List α) (h : ys ≠ []) :
    (x :: ys).getLast? = ys.getLast? := by
  cases ys with
  | nil => exact absurd rfl h
  | cons y ys => rfl

theorem chunkFaces_getLast (l : List ℕ) (h : l ≠ []) :
    ∃ c, (chunkFaces l).getLast? = some c ∧
      c.length = (if l.length % 3 = 0 then 3 else l.length % 3) := by
  induction l using chunkFaces.induct with
  | case1 => exact absurd rfl h
  | case2 a => exact ⟨[a], rfl, by norm_num⟩
  | case3 a b => exact ⟨[a, b], rfl, by norm_num⟩
  | case4 a b c rest ih =>
    by_cases hrest : rest = []
    · subst hrest
      exact ⟨[a, b, c], rfl, by norm_num⟩
    · rcases ih hrest with ⟨c', hc1, hc2⟩
      refine ⟨c', ?_, ?_⟩
      · show ([a, b, c] :: chunkFaces rest).getLast? = some c'
        rw [getLast?_cons_of_ne_nil _ _ (chunkFaces_ne_nil rest hrest)]
        exact hc1
      · have hm : (a :: b :: c :: rest).length % 3 = rest.length % 3 := by
          simp only [List.length_cons]
          omega
        rw [hm]
        exact hc2

theorem chunkFaces_all_three (l : List ℕ) (h : l.length % 3 = 0) :
    ∀ c ∈ chunkFaces l, c.length = 3 := by
  induction l using chunkFaces.induct with
  | case1 => intro c hc; exact absurd hc (List.not_mem_nil c)
  | case2 a => simp at h
  | case3 a b => simp at h
  | case4 a b c rest ih =>
    intro x hx
    have hr : rest.length % 3 = 0 := by
      simp only [List.length_cons] at h
      omega
    have hx' : x ∈ [a, b, c] :: chunkFaces rest := hx
    rcases List.mem_cons.mp hx' with h1 | h1
    · rw [h1]
      rfl
    · exact ih hr x h1

end ChunkLemmas

end SollumzGeometry

namespace SollumzGeometry

section WeightSlotLemmas

theorem filterMap_all_some {α : Type} (f : α → Option α)
    (hf : ∀ e, f e = some e) : ∀ (g : List α), g.filterMap f = g := by
  intro g
  induction g with
  | nil => rfl
  | cons e rest ih => rw [List.filterMap_cons_some (hf e), ih]

theorem filterMap_all_none {α β : Type} (f : α → Option β)
    (hf : ∀ e, f e = none) : ∀ (g : List α), g.filterMap f = [] := by
  intro g
  induction g with
  | nil => rfl
  | cons e rest ih => rw [List.filterMap_cons_none (hf e), ih]

theorem enumFrom_ops_fst_ge (gs : List (List (ℕ × ℚ))) :
    ∀ (n : ℕ), ∀ t ∈ (List.enumFrom n gs).flatMap
      (fun p => p.2.map (fun e => (p.1, e.1, e.2))), n ≤ t.1 := by
  induction gs with
  | nil => intro n t ht; simp at ht
  | cons g rest ih =>
    intro n t ht
    rw [List.enumFrom_cons, List.flatMap_cons] at ht
    rcases List.mem_append.mp ht with h | h
    · rcases List.mem_map.mp h with ⟨e, _, rfl⟩
      exact Nat.le_refl n
    · exact Nat.le_of_succ_le (ih (n + 1) t h)

theorem slotWeights_enumFrom (gs : List (List (ℕ × ℚ))) :
    ∀ (n i : ℕ) (hi : i < gs.length),
      slotWeights ((List.enumFrom n gs).flatMap
        (fun p => p.2.map (fun e => (p.1, e.1, e.2)))) (n + i) =
      gs.get ⟨i, hi⟩ := by
  induction gs with
  | nil => intro n i hi; cases hi
  | cons g rest ih =>
    intro n i hi
    rw [List.enumFrom_cons, List.flatMap_cons]
    unfold slotWeights
    rw [List.filterMap_append, List.filterMap_map]
    cases i with
    | zero =>
      rw [filterMap_all_some _ (fun e => by
        show (if n = n + 0 then some (e.1, e.2) else none) = some e
        rw [if_pos (by omega)]) g]
      rw [filterMap_guard_of_not_mem _ _ (fun hmem => by
        rcases List.mem_map.mp hmem with ⟨t, ht, hteq⟩
        have := enumFrom_ops_fst_ge rest (n + 1) t ht
        omega)]
      rw [List.append_nil]
      rfl
    | succ j =>
      rw [filterMap_all_none _ (fun e => by
        show (if n = n + (j + 1) then some (e.1, e.2) else none) = none
        rw [if_neg (by omega)]) g]
      rw [List.nil_append]
      rw [show n + (j + 1) = (n + 1) + j from by omega]
      exact ih (n + 1) j (by
        rw [List.length_cons] at hi
        omega)

theorem slotWeights_set_geometry_weights (vc : VertexComponents) (i : ℕ)
    (hi : i < vc.vertex_groups.length) :
    slotWeights (set_geometry_weights vc) i = (vc.vertex_groups.get ⟨i, hi⟩).2 := by
  unfold set_geometry_weights
  have hlen : i < (vc.vertex_groups.map Prod.snd).length := by
    rw [List.length_map]
    exact hi
  have h := slotWeights_enumFrom (vc.vertex_groups.map Prod.snd) 0 i hlen
  rw [Nat.zero_add] at h
  rw [show List.enum (vc.vertex_groups.map Prod.snd) =
    List.enumFrom 0 (vc.vertex_groups.map Prod.snd) from rfl]
  rw [h]
  simp [List.get_eq_getElem, List.getElem_map]

end WeightSlotLemmas

end SollumzGeometry

namespace SollumzGeometry

theorem channel_map_entry (pat : String) (vs : List VertexRecord)
    (hf : uniformFields vs) (p : String × List Vec)
    (hp : p ∈ groupedOf (specFieldStream pat vs)) :
    p.2 = vs.map (fun v => (lookupField v.namedFields p.1).getD []) := by
  unfold groupedOf at hp
  rcases List.mem_map.mp hp with ⟨k, hk, rfl⟩
  have hk' : k ∈ (specFieldStream pat vs).map Prod.fst :=
    (mem_firstOccurrences _ _).mp hk
  have hmatch : strContains k pat = true := by
    rcases List.mem_map.mp hk' with ⟨kv, hkv, hkveq⟩
    rw [← hkveq]
    exact specFieldStream_matches pat vs kv hkv
  exact channel_values pat vs k hf (channel_key_everywhere pat vs k hf hk') hmatch

/-- Claim C1, counterexample.  The claim states that for an index buffer
whose length is not a multiple of 3 the face-reshaping step signals a
MalformedBuffer error rather than producing a faces list.  The source
(`faces = [indices[i:i + 3] for i in range(0, len(indices), 3)]`) raises no
error: on the 4-element buffer `[0, 1, 0, 1]` it produces the faces list
`[[0, 1, 0], [1]]`, with a dangling 1-element final chunk. -/
theorem C1_counterexample : chunkFaces [0, 1, 0, 1] = [[0, 1, 0], [1]] := rfl

/-- Claim C1, amended.  For an index buffer whose length is not a multiple
of 3, the face-reshaping step does not signal any error: it totally
produces a faces list of `len / 3 + 1` chunks whose concatenation is the
original index buffer, the final chunk holding the `len % 3` leftover
indices. -/
theorem C1_ragged_chunking (l : List ℕ) (h : l.length % 3 ≠ 0) :
    (chunkFaces l).flatten = l
    ∧ (chunkFaces l).length = l.length / 3 + 1
    ∧ ∃ c, (chunkFaces l).getLast? = some c ∧ c.length = l.length % 3 := by
  have hne : l ≠ [] := by
    intro he
    rw [he] at h
    exact h rfl
  refine ⟨chunkFaces_flatten l, ?_, ?_⟩
  · rw [chunkFaces_length]
    omega
  · rcases chunkFaces_getLast l hne with ⟨c, h1, h2⟩
    refine ⟨c, h1, ?_⟩
    rw [h2, if_neg h]

/-- Witness for C1_ragged_chunking at the concrete buffer `[0, 1, 0, 1]`. -/
theorem C1_ragged_chunking_witness :
    (chunkFaces [0, 1, 0, 1]).flatten = [0, 1, 0, 1]
    ∧ (chunkFaces [0, 1, 0, 1]).length = [0, 1, 0, 1].length / 3 + 1
    ∧ ∃ c, (chunkFaces [0, 1, 0, 1]).getLast? = some c ∧
        c.length = [0, 1, 0, 1].length % 3 :=
  C1_ragged_chunking [0, 1, 0, 1] (by decide)

/-- Claim C5.  For an index buffer whose length is a multiple of 3, the
face-reshaping step succeeds and produces exactly `len / 3` consecutive,
non-overlapping triples in original order: every chunk has length 3 and the
concatenation of the chunks is the original index buffer. -/
theorem C5_faces_of_multiple (l : List ℕ) (h : l.length % 3 = 0) :
    (chunkFaces l).length = l.length / 3
    ∧ (∀ c ∈ chunkFaces l, c.length = 3)
    ∧ (chunkFaces l).flatten = l := by
  refine ⟨?_, chunkFaces_all_three l h, chunkFaces_flatten l⟩
  rw [chunkFaces_length]
  omega

/-- Witness for C5_faces_of_multiple at the concrete buffer `[0, 1, 0]`. -/
theorem C5_faces_of_multiple_witness :
    (chunkFaces [0, 1, 0]).length = [0, 1, 0].length / 3
    ∧ (∀ c ∈ chunkFaces [0, 1, 0], c.length = 3)
    ∧ (chunkFaces [0, 1, 0]).flatten = [0, 1, 0] :=
  C5_faces_of_multiple [0, 1, 0] (by decide)

/-- Claim C4.  The decoder succeeds exactly when every record with the
blendweights attribute carries at least 4 blend-weight entries together
with a blendindices attribute of at least 4 entries; on any mismatch
(missing pair attribute or a too-short array) it signals an error value
(the embedded Python IndexError / AttributeError), and the absence of any
optional attribute alone is never an error. -/
theorem C4_blend_mismatch (vs : List VertexRecord) :
    ((∃ vc, get_vertex_components vs = Except.ok vc) ↔
      (∀ v ∈ vs, blendOk v = true))
    ∧ ((¬ ∀ v ∈ vs, blendOk v = true) →
      ∃ e, get_vertex_components vs = Except.error e) := by
  have hiff : (∃ vc, get_vertex_components vs = Except.ok vc) ↔
      (∀ v ∈ vs, blendOk v = true) := by
    constructor
    · rintro ⟨vc, h⟩
      exact (gvc_ok vs vc h).1
    · exact gvc_total vs
  refine ⟨hiff, fun hnot => ?_⟩
  cases hres : get_vertex_components vs with
  | ok vc => exact absurd (hiff.mp ⟨vc, hres⟩) hnot
  | error e => exact ⟨e, rfl⟩

/-- Witness for C4_blend_mismatch: a record with a 2-entry blend-weight
array errors, a record with no blend attributes at all succeeds. -/
theorem C4_blend_mismatch_witness :
    (∃ e, get_vertex_components
      [⟨[0, 0, 0], none, some [255, 0], some [1, 2, 3, 4], []⟩] =
        Except.error e)
    ∧ (∃ vc, get_vertex_components
      [⟨[0, 0, 0], none, none, none, []⟩] = Except.ok vc) := by
  constructor
  · exact (C4_blend_mismatch _).2 (by decide)
  · exact (C4_blend_mismatch _).1.mpr (by decide)

/-- Claim C2.  For every successfully decoded buffer, `vertex_groups` is
exactly the insertion-ordered grouping of the blend-slot stream: scanning
vertices in input order and slots 0..3 within a vertex, each slot
contributes exactly one entry `(vertex_index, blendweights[i] / 255)` under
key `blendindices[i]`, with no renormalization of per-vertex weight sums
and no filtering of zero-weight slots; duplicate slots hitting the same
bone on the same vertex are kept, and within each bone group the
originating vertex indices are in ascending order. -/
theorem C2_blend_dequantization (vs : List VertexRecord)
    (vc : VertexComponents) (h : get_vertex_components vs = Except.ok vc) :
    vc.vertex_groups =
      (firstOccurrences ((specSlotStream 0 vs).map Prod.fst)).map
        (fun b => (b, (specSlotStream 0 vs).filterMap
          (fun e => if e.1 = b then some e.2 else none)))
    ∧ ∀ p ∈ vc.vertex_groups, List.Pairwise (· ≤ ·) (p.2.map Prod.fst) := by
  have hvg := (gvc_ok vs vc h).2.2.2.2.2
  constructor
  · rw [hvg]
    rfl
  · intro p hp
    rw [hvg] at hp
    unfold groupedOf at hp
    rcases List.mem_map.mp hp with ⟨b, hb, rfl⟩
    have hpw : List.Pairwise (fun x y : ℕ × ℚ => x.1 ≤ y.1)
        ((specSlotStream 0 vs).filterMap
          (fun e => if e.1 = b then some e.2 else none)) := by
      apply List.Pairwise.filterMap _ ?_ (specSlotStream_pairwise vs 0)
      intro e e' hr x hx x' hx'
      by_cases h1 : e.1 = b
      · by_cases h2 : e'.1 = b
        · rw [if_pos h1] at hx
          rw [if_pos h2] at hx'
          rw [Option.mem_some_iff] at hx hx'
          rw [← hx, ← hx']
          exact hr
        · rw [if_neg h2] at hx'
          exact absurd hx' (Option.not_mem_none x')
      · rw [if_neg h1] at hx
        exact absurd hx (Option.not_mem_none x)
    exact List.Pairwise.map Prod.fst (fun a c hac => hac) hpw

/-- Witness for C2_blend_dequantization on a concrete two-vertex buffer
(the 255 byte de-quantizes to 1, the 128 byte to 128/255). -/
theorem C2_blend_dequantization_witness :
    (⟨[[0, 0, 0], [1, 0, 0]], [],  [], [],
        [(2, [(0, 1), (1, 128 / 255)]),
          (0, [(0, 0), (0, 0), (0, 0), (1, 0), (1, 0)]),
          (3, [(1, 127 / 255)])]⟩ : VertexComponents).vertex_groups =
      (firstOccurrences ((specSlotStream 0
        [⟨[0, 0, 0], none, some [255, 0, 0, 0], some [2, 0, 0, 0], []⟩,
          ⟨[1, 0, 0], none, some [128, 127, 0, 0], some [2, 3, 0, 0], []⟩]).map
            Prod.fst)).map
        (fun b => (b, (specSlotStream 0
          [⟨[0, 0, 0], none, some [255, 0, 0, 0], some [2, 0, 0, 0], []⟩,
            ⟨[1, 0, 0], none, some [128, 127, 0, 0], some [2, 3, 0, 0], []⟩]).filterMap
          (fun e => if e.1 = b then some e.2 else none)))
    ∧ ∀ p ∈ (⟨[[0, 0, 0], [1, 0, 0]], [], [], [],
        [(2, [(0, 1), (1, 128 / 255)]),
          (0, [(0, 0), (0, 0), (0, 0), (1, 0), (1, 0)]),
          (3, [(1, 127 / 255)])]⟩ : VertexComponents).vertex_groups,
        List.Pairwise (· ≤ ·) (p.2.map Prod.fst) :=
  C2_blend_dequantization
    [⟨[0, 0, 0], none, some [255, 0, 0, 0], some [2, 0, 0, 0], []⟩,
      ⟨[1, 0, 0], none, some [128, 127, 0, 0], some [2, 3, 0, 0], []⟩]
    ⟨[[0, 0, 0], [1, 0, 0]], [], [], [],
      [(2, [(0, 1), (1, 128 / 255)]),
        (0, [(0, 0), (0, 0), (0, 0), (1, 0), (1, 0)]),
        (3, [(1, 127 / 255)])]⟩
    (by norm_num [get_vertex_components, gvcAux, processVertex, processBlend,
      doSlot, addChannels, appendGrouped])

end SollumzGeometry

namespace SollumzGeometry

/-- Claim C3, counterexample.  The claim states that a field whose name
contains "colour" or alternatively "color" is appended to the color map.
The source only tests `"colour" in key`: a vertex with a field named
"color0" (which contains "color" but not "colour") decodes with an empty
color map, so the "color" alternative of the claim is false. -/
theorem C3_counterexample :
    strContains "color0" "color" = true
    ∧ get_vertex_components
        [⟨[0, 0, 0], none, none, none, [("color0", [1, 0, 0, 1])]⟩] =
      Except.ok ⟨[[0, 0, 0]], [], [], [], []⟩ := by
  constructor
  · decide
  · norm_num [get_vertex_components, gvcAux, processVertex, processBlend,
      doSlot, addChannels, appendGrouped, strContains, hasSub, leadMatch]
    decide

/-- Claim C3, amended.  For every successfully decoded buffer, a named
field is appended to `uv_map[name]` exactly when the name contains the
substring "texcoord", and to `color_map[name]` exactly when the name
contains the substring "colour" (the spelling "color" without the "u" does
not match): each map is the insertion-ordered grouping of the matching
field stream, keys in first-seen order. -/
theorem C3_channel_maps (vs : List VertexRecord) (vc : VertexComponents)
    (h : get_vertex_components vs = Except.ok vc) :
    vc.uv_map =
      (firstOccurrences ((specFieldStream "texcoord" vs).map Prod.fst)).map
        (fun k => (k, (specFieldStream "texcoord" vs).filterMap
          (fun kv => if kv.1 = k then some kv.2 else none)))
    ∧ vc.color_map =
      (firstOccurrences ((specFieldStream "colour" vs).map Prod.fst)).map
        (fun k => (k, (specFieldStream "colour" vs).filterMap
          (fun kv => if kv.1 = k then some kv.2 else none))) := by
  rcases gvc_ok vs vc h with ⟨-, -, -, huv, hcm, -⟩
  exact ⟨huv.trans rfl, hcm.trans rfl⟩

/-- Witness for C3_channel_maps on a concrete one-vertex buffer with a
"texcoord0" and a "colour0" field. -/
theorem C3_channel_maps_witness :
    (⟨[[0, 0, 0]], [], [("texcoord0", [[0, 1]])], [("colour0", [[1, 1, 1, 1]])],
        []⟩ : VertexComponents).uv_map =
      (firstOccurrences ((specFieldStream "texcoord"
        [⟨[0, 0, 0], none, none, none,
          [("texcoord0", [0, 1]), ("colour0", [1, 1, 1, 1])]⟩]).map Prod.fst)).map
        (fun k => (k, (specFieldStream "texcoord"
          [⟨[0, 0, 0], none, none, none,
            [("texcoord0", [0, 1]), ("colour0", [1, 1, 1, 1])]⟩]).filterMap
          (fun kv => if kv.1 = k then some kv.2 else none)))
    ∧ (⟨[[0, 0, 0]], [], [("texcoord0", [[0, 1]])], [("colour0", [[1, 1, 1, 1]])],
        []⟩ : VertexComponents).color_map =
      (firstOccurrences ((specFieldStream "colour"
        [⟨[0, 0, 0], none, none, none,
          [("texcoord0", [0, 1]), ("colour0", [1, 1, 1, 1])]⟩]).map Prod.fst)).map
        (fun k => (k, (specFieldStream "colour"
          [⟨[0, 0, 0], none, none, none,
            [("texcoord0", [0, 1]), ("colour0", [1, 1, 1, 1])]⟩]).filterMap
          (fun kv => if kv.1 = k then some kv.2 else none))) :=
  C3_channel_maps
    [⟨[0, 0, 0], none, none, none,
      [("texcoord0", [0, 1]), ("colour0", [1, 1, 1, 1])]⟩]
    ⟨[[0, 0, 0]], [], [("texcoord0", [[0, 1]])], [("colour0", [[1, 1, 1, 1]])], []⟩
    (by
      norm_num [get_vertex_components, gvcAux, processVertex, processBlend,
        doSlot, addChannels, appendGrouped, strContains, hasSub, leadMatch])

/-- Claim C6.  For every successfully decoded buffer with a uniform layout
(the optional normal attribute and the named-field set are buffer-wide),
the output satisfies: `len(positions) = len(vertices)`; `len(normals)`
equals `len(positions)` or 0; every value list of `uv_map` and `color_map`
is the per-vertex map of that field over the input (hence has exactly
`len(positions)` entries, element `i` read from `vertices[i]`); every
vertex index inside `vertex_groups` lies in `[0, len(positions))`. -/
theorem C6_output_invariants (vs : List VertexRecord) (vc : VertexComponents)
    (h : get_vertex_components vs = Except.ok vc)
    (hn : uniformNormals vs) (hf : uniformFields vs) :
    vc.positions.length = vs.length
    ∧ (vc.normals.length = vc.positions.length ∨ vc.normals.length = 0)
    ∧ (∀ p ∈ vc.uv_map ++ vc.color_map,
        p.2 = vs.map (fun v => (lookupField v.namedFields p.1).getD [])
        ∧ p.2.length = vc.positions.length)
    ∧ (∀ g ∈ vc.vertex_groups, ∀ e ∈ g.2, e.1 < vc.positions.length) := by
  rcases gvc_ok vs vc h with ⟨-, hpos, hnorm, huv, hcm, hvg⟩
  have hplen : vc.positions.length = vs.length := by
    rw [hpos, List.length_map]
  refine ⟨hplen, ?_, ?_, ?_⟩
  · rcases hn with hs | hn0
    · left
      rw [hnorm, filterMap_normal_all_some vs hs, List.length_map, hplen]
    · right
      rw [hnorm, filterMap_normal_all_none vs hn0]
      rfl
  · intro p hp
    have hentry : p.2 = vs.map (fun v => (lookupField v.namedFields p.1).getD []) := by
      rcases List.mem_append.mp hp with hp1 | hp1
      · exact channel_map_entry "texcoord" vs hf p (huv ▸ hp1)
      · exact channel_map_entry "colour" vs hf p (hcm ▸ hp1)
    refine ⟨hentry, ?_⟩
    rw [hentry, List.length_map, hplen]
  · intro g hg e he
    rw [hvg] at hg
    unfold groupedOf at hg
    rcases List.mem_map.mp hg with ⟨b, hb, rfl⟩
    rcases List.mem_filterMap.mp he with ⟨kv, hkv, hkv2⟩
    have hkv2' : kv.2 = e := by
      by_cases hc : kv.1 = b
      · rw [if_pos hc] at hkv2
        exact Option.some.inj hkv2
      · rw [if_neg hc] at hkv2
        cases hkv2
    have hbound := (specSlotStream_vidx_bound vs 0 kv hkv).2
    rw [hplen, ← hkv2']
    omega

/-- Witness for C6_output_invariants on a concrete one-vertex buffer with
normal, blend data and a uv channel. -/
theorem C6_output_invariants_witness :
    (⟨[[0, 0, 0]], [[0, 0, 1]], [("texcoord0", [[0, 1]])], [],
        [(2, [(0, 1), (0, 0), (0, 0), (0, 0)])]⟩ : VertexComponents).positions.length =
      ([⟨[0, 0, 0], some [0, 0, 1], some [255, 0, 0, 0], some [2, 2, 2, 2],
        [("texcoord0", [0, 1])]⟩] : List VertexRecord).length
    ∧ ((⟨[[0, 0, 0]], [[0, 0, 1]], [("texcoord0", [[0, 1]])], [],
        [(2, [(0, 1), (0, 0), (0, 0), (0, 0)])]⟩ : VertexComponents).normals.length =
        (⟨[[0, 0, 0]], [[0, 0, 1]], [("texcoord0", [[0, 1]])], [],
        [(2, [(0, 1), (0, 0), (0, 0), (0, 0)])]⟩ : VertexComponents).positions.length
      ∨ (⟨[[0, 0, 0]], [[0, 0, 1]], [("texcoord0", [[0, 1]])], [],
        [(2, [(0, 1), (0, 0), (0, 0), (0, 0)])]⟩ : VertexComponents).normals.length = 0)
    ∧ (∀ p ∈ (⟨[[0, 0, 0]], [[0, 0, 1]], [("texcoord0", [[0, 1]])], [],
        [(2, [(0, 1), (0, 0), (0, 0), (0, 0)])]⟩ : VertexComponents).uv_map ++
        (⟨[[0, 0, 0]], [[0, 0, 1]], [("texcoord0", [[0, 1]])], [],
        [(2, [(0, 1), (0, 0), (0, 0), (0, 0)])]⟩ : VertexComponents).color_map,
        p.2 = ([⟨[0, 0, 0], some [0, 0, 1], some [255, 0, 0, 0], some [2, 2, 2, 2],
          [("texcoord0", [0, 1])]⟩] : List VertexRecord).map
            (fun v => (lookupField v.namedFields p.1).getD [])
        ∧ p.2.length = (⟨[[0, 0, 0]], [[0, 0, 1]], [("texcoord0", [[0, 1]])], [],
          [(2, [(0, 1), (0, 0), (0, 0), (0, 0)])]⟩ : VertexComponents).positions.length)
    ∧ (∀ g ∈ (⟨[[0, 0, 0]], [[0, 0, 1]], [("texcoord0", [[0, 1]])], [],
        [(2, [(0, 1), (0, 0), (0, 0), (0, 0)])]⟩ : VertexComponents).vertex_groups,
        ∀ e ∈ g.2, e.1 < (⟨[[0, 0, 0]], [[0, 0, 1]], [("texcoord0", [[0, 1]])], [],
          [(2, [(0, 1), (0, 0), (0, 0), (0, 0)])]⟩ : VertexComponents).positions.length) :=
  C6_output_invariants
    [⟨[0, 0, 0], some [0, 0, 1], some [255, 0, 0, 0], some [2, 2, 2, 2],
      [("texcoord0", [0, 1])]⟩]
    ⟨[[0, 0, 0]], [[0, 0, 1]], [("texcoord0", [[0, 1]])], [],
      [(2, [(0, 1), (0, 0), (0, 0), (0, 0)])]⟩
    (by
      norm_num [get_vertex_components, gvcAux, processVertex, processBlend,
        doSlot, addChannels, appendGrouped, strContains, hasSub, leadMatch]
      all_goals simp)
    (Or.inl (by decide))
    (by constructor
        · intro v hv w hw
          rw [List.mem_singleton.mp hv, List.mem_singleton.mp hw]
        · intro v hv
          rw [List.mem_singleton.mp hv]
          decide)

/-- Claim C7.  For every successfully decoded buffer: if every record
carries the normal attribute, the normals list maps the input records in
order (so its length equals the vertex count); if no record carries it,
the normals list is empty. -/
theorem C7_normals (vs : List VertexRecord) (vc : VertexComponents)
    (h : get_vertex_components vs = Except.ok vc) :
    ((∀ v ∈ vs, v.normal.isSome = true) →
      vc.normals = vs.map (fun v => v.normal.getD [])
      ∧ vc.normals.length = vs.length)
    ∧ ((∀ v ∈ vs, v.normal = none) → vc.normals = []) := by
  have hnorm := (gvc_ok vs vc h).2.2.1
  constructor
  · intro hs
    rw [hnorm, filterMap_normal_all_some vs hs]
    exact ⟨rfl, List.length_map _ _⟩
  · intro h0
    rw [hnorm, filterMap_normal_all_none vs h0]

/-- Witness for C7_normals: a one-vertex buffer with a normal yields that
normal, a one-vertex buffer without one yields the empty normals list. -/
theorem C7_normals_witness :
    (⟨[[0, 0, 0]], [[0, 0, 1]], [], [], []⟩ : VertexComponents).normals =
      ([⟨[0, 0, 0], some [0, 0, 1], none, none, []⟩] : List VertexRecord).map
        (fun v => v.normal.getD [])
    ∧ (⟨[[1, 1, 1]], [], [], [], []⟩ : VertexComponents).normals = [] := by
  constructor
  · exact ((C7_normals [⟨[0, 0, 0], some [0, 0, 1], none, none, []⟩]
      ⟨[[0, 0, 0]], [[0, 0, 1]], [], [], []⟩
      (by norm_num [get_vertex_components, gvcAux, processVertex, processBlend,
        doSlot, addChannels, appendGrouped])).1 (by decide)).1
  · exact (C7_normals [⟨[1, 1, 1], none, none, none, []⟩]
      ⟨[[1, 1, 1]], [], [], [], []⟩
      (by norm_num [get_vertex_components, gvcAux, processVertex, processBlend,
        doSlot, addChannels, appendGrouped])).2 (by decide)

end SollumzGeometry

namespace SollumzGeometry

/-- Claim C8, counterexample.  The claim states the synthetic
"EXTERNAL_BONE.<index>" name is used whenever an external bone-id list is
supplied (and the bone list does not cover the index).  The source
additionally requires `bone_index < len(bone_ids)`: with `bone_ids = [7]`
supplied and bone index 3, the created group is named "UNKNOWN_BONE",
not "EXTERNAL_BONE.3". -/
theorem C8_counterexample :
    create_vertex_groups [] [7] ⟨[], [], [], [], [(3, [(0, 1)])]⟩ =
      ["UNKNOWN_BONE"]
    ∧ "UNKNOWN_BONE" ≠ "EXTERNAL_BONE.3" := by
  constructor
  · rfl
  · decide

/-- Claim C8, amended.  The collaborator creates exactly one named vertex
group per key of `vertex_groups`: the group for bone index `b` is named
from the bone list when `b` is in range of it, else "EXTERNAL_BONE.<b>"
when `b` is also in range of the supplied external bone-id list, else
"UNKNOWN_BONE". -/
theorem C8_vertex_group_names (bones : List String) (bone_ids : List ℕ)
    (vc : VertexComponents) (i : ℕ) (hi : i < vc.vertex_groups.length) :
    (create_vertex_groups bones bone_ids vc).length = vc.vertex_groups.length
    ∧ (create_vertex_groups bones bone_ids vc).get? i =
        some (if (vc.vertex_groups.get ⟨i, hi⟩).1 < bones.length then
                bones.getD (vc.vertex_groups.get ⟨i, hi⟩).1 "UNKNOWN_BONE"
              else if (vc.vertex_groups.get ⟨i, hi⟩).1 < bone_ids.length then
                "EXTERNAL_BONE." ++ toString (vc.vertex_groups.get ⟨i, hi⟩).1
              else "UNKNOWN_BONE") := by
  constructor
  · unfold create_vertex_groups
    rw [List.length_map]
  · unfold create_vertex_groups
    rw [List.get?_eq_getElem?, List.getElem?_map, List.getElem?_eq_getElem hi,
      Option.map_some']
    congr 1
    rw [show vc.vertex_groups[i] = vc.vertex_groups.get ⟨i, hi⟩ from rfl]
    unfold vertexGroupName
    by_cases h1 : (vc.vertex_groups.get ⟨i, hi⟩).1 < bones.length
    · rw [if_pos ⟨List.ne_nil_of_length_pos (by omega), h1⟩, if_pos h1]
    · rw [if_neg (fun hc => h1 hc.2), if_neg h1]
      by_cases h2 : (vc.vertex_groups.get ⟨i, hi⟩).1 < bone_ids.length
      · rw [if_pos ⟨List.ne_nil_of_length_pos (by omega), h2⟩, if_pos h2]
      · rw [if_neg (fun hc => h2 hc.2), if_neg h2]

/-- Witness for C8_vertex_group_names: one group keyed by bone 0 with the
bone list ["root"] gets the name "root". -/
theorem C8_vertex_group_names_witness :
    (create_vertex_groups ["root"] [] ⟨[], [], [], [], [(0, [(0, 1)])]⟩).length =
      (⟨[], [], [], [], [(0, [(0, 1)])]⟩ : VertexComponents).vertex_groups.length
    ∧ (create_vertex_groups ["root"] [] ⟨[], [], [], [], [(0, [(0, 1)])]⟩).get? 0 =
        some "root" := by
  have h := C8_vertex_group_names ["root"] []
    ⟨[], [], [], [], [(0, [(0, 1)])]⟩ 0 (by decide)
  refine ⟨h.1, ?_⟩
  rw [h.2]
  decide

/-- Claim C9.  When a geometry's shader index lies outside
`[0, len(materials))` (including negative indices), the material-assignment
step emits a warning and leaves the mesh material list unchanged rather
than failing; when it is in range it appends `materials[shader_index]`. -/
theorem C9_material_assignment (s : ℤ) (mats ms : List String) :
    (¬ (0 ≤ s ∧ s < (mats.length : ℤ)) →
      create_material s mats ms = (true, ms))
    ∧ ((0 ≤ s ∧ s < (mats.length : ℤ)) →
      ∃ m, mats.get? s.toNat = some m
        ∧ create_material s mats ms = (false, ms ++ [m])) := by
  constructor
  · intro hns
    unfold create_material
    rw [if_pos hns]
  · intro hs
    unfold create_material
    rw [if_neg (not_not_intro hs)]
    have hlt : s.toNat < mats.length := by omega
    refine ⟨mats.getD s.toNat "UNKNOWN", ?_, rfl⟩
    rw [List.get?_eq_getElem?, List.getElem?_eq_getElem hlt,
      List.getD_eq_getElem?_getD, List.getElem?_eq_getElem hlt]
    rfl

/-- Witness for C9_material_assignment: shader index -1 over one material
warns and assigns nothing, shader index 0 appends that material. -/
theorem C9_material_assignment_witness :
    create_material (-1) ["m0"] [] = (true, [])
    ∧ create_material 0 ["m0"] [] = (false, ["m0"]) := by
  constructor
  · exact (C9_material_assignment (-1) ["m0"] []).1 (by decide)
  · rcases (C9_material_assignment 0 ["m0"] []).2 (by decide) with ⟨m, hm, he⟩
    have hm' : m = "m0" := by
      simp only [show (["m0"].get? (Int.toNat 0)) = some "m0" from rfl] at hm
      exact (Option.some.inj hm).symm
    rw [hm'] at he
    exact he

/-- Claim C10.  For every successfully decoded buffer, the key iteration
order of `vertex_groups` is the first-occurrence order of the bone indices
(vertices scanned in input order, blend slots 0..3 within a vertex), and
keys and values iterate in the same order: the i-th group created by
`create_vertex_groups` is named from the i-th key, and the weight pairs
added under group slot i by `set_geometry_weights` are exactly the i-th
key's weight list, so both refer to the same bone index. -/
theorem C10_iteration_order (vs : List VertexRecord) (vc : VertexComponents)
    (h : get_vertex_components vs = Except.ok vc)
    (bones : List String) (bone_ids : List ℕ) (i : ℕ)
    (hi : i < vc.vertex_groups.length) :
    vc.vertex_groups.map Prod.fst = firstOccurrences (specBoneScan vs)
    ∧ (create_vertex_groups bones bone_ids vc).get? i =
        some (vertexGroupName bones bone_ids (vc.vertex_groups.get ⟨i, hi⟩).1)
    ∧ slotWeights (set_geometry_weights vc) i =
        (vc.vertex_groups.get ⟨i, hi⟩).2 := by
  have hvg := (gvc_ok vs vc h).2.2.2.2.2
  refine ⟨?_, ?_, slotWeights_set_geometry_weights vc i hi⟩
  · rw [hvg, groupedOf_keys]
    rfl
  · unfold create_vertex_groups
    rw [List.get?_eq_getElem?, List.getElem?_map, List.getElem?_eq_getElem hi,
      Option.map_some']
    rfl

/-- Witness for C10_iteration_order on a concrete one-vertex buffer whose
four blend slots all reference bone 0. -/
theorem C10_iteration_order_witness :
    (⟨[[0, 0, 0]], [], [], [],
        [(0, [(0, 1), (0, 0), (0, 0), (0, 0)])]⟩ : VertexComponents).vertex_groups.map
        Prod.fst =
      firstOccurrences (specBoneScan
        [⟨[0, 0, 0], none, some [255, 0, 0, 0], some [0, 0, 0, 0], []⟩])
    ∧ (create_vertex_groups ["root"] []
        ⟨[[0, 0, 0]], [], [], [], [(0, [(0, 1), (0, 0), (0, 0), (0, 0)])]⟩).get? 0 =
        some "root"
    ∧ slotWeights (set_geometry_weights
        ⟨[[0, 0, 0]], [], [], [], [(0, [(0, 1), (0, 0), (0, 0), (0, 0)])]⟩) 0 =
        [(0, 1), (0, 0), (0, 0), (0, 0)] := by
  have h := C10_iteration_order
    [⟨[0, 0, 0], none, some [255, 0, 0, 0], some [0, 0, 0, 0], []⟩]
    ⟨[[0, 0, 0]], [], [], [], [(0, [(0, 1), (0, 0), (0, 0), (0, 0)])]⟩
    (by norm_num [get_vertex_components, gvcAux, processVertex, processBlend,
      doSlot, addChannels, appendGrouped])
    ["root"] [] 0 (by decide)
  refine ⟨h.1, ?_, h.2.2⟩
  rw [h.2.1]
  rfl

end SollumzGeometry
